import Mathlib

/-!
Verification development for the zipline-fmp-ingest repository.

The two source modules are embedded shallowly:

* `src/fmp.py` — a retrying API client (`call_fmp`) and a per-symbol
  history fetcher (`get_stocks_history`).  The embedding models Python
  locals explicitly where it matters: CPython deletes the binding of an
  `except ... as e` target at the end of the handler, so reading it
  afterwards raises `UnboundLocalError`; an uninitialised local read at
  `return res` does the same.  Exceptions, `logging.error` calls,
  `sleep` calls and invocations of the wrapped method are recorded in an
  event trace so that counting/ordering properties can be stated.

* `src/ingest.py` — reshaping of the fetched records into
  calendar-aligned tables.  DataFrames are modelled as a list of column
  labels plus rows of association lists from column label to an optional
  integer cell (`none` plays the role of NaN); the `(date, symbol)`
  MultiIndex is the key of each row.  External collaborators (the FMP
  API, the trading calendar, the current clock) are oracle parameters;
  the writer sinks are modelled by returning the tables that would be
  handed to them.

Dates are modelled as natural numbers (days); numeric cells as integers.
-/

namespace FmpIngest

/-! ## Python values and dictionaries -/

/-- A Python value as far as the parameter dictionaries of `fmp.py` are
concerned: `None` or a string. -/
inductive PyVal where
  | none
  | str (s : String)
  deriving DecidableEq, Repr

/-- Python truthiness of a `PyVal`: `None` and the empty string are falsy. -/
def PyVal.truthy : PyVal → Bool
  | PyVal.none => false
  | PyVal.str s => s ≠ ""

/-- A Python `dict` with string keys, as an insertion-ordered association
list (first occurrence of a key is its binding). -/
abbrev Params := List (String × PyVal)

/-- `d.get(k, None)`-style lookup in an association list (first occurrence
of the key wins). -/
def lookupAssoc {K V : Type} [DecidableEq K] : List (K × V) → K → Option V
  | [], _ => Option.none
  | (k', v) :: rest, k => if k' = k then Option.some v else lookupAssoc rest k

/-- `d[k] = v` on a Python dict: rebind an existing key in place, else
append the new key at the end (insertion order). -/
def updateAssoc {K V : Type} [DecidableEq K] : List (K × V) → K → V → List (K × V)
  | [], k, v => [(k, v)]
  | (k', v') :: rest, k, v =>
      if k' = k then (k', v) :: rest else (k', v') :: updateAssoc rest k v

/-! ## `src/fmp.py` -/

def FMP_API_RETRIES : Nat := 2

def FMP_API_SLEEP_TIME : Nat := 70

def FMP_API_KEY : String := "yourkeyhere"

/-- An exception as it propagates out of the embedded Python code: either
one raised by the wrapped API method, or an `UnboundLocalError` from
reading a local variable that is not bound. -/
inductive PyExc (E : Type) where
  | user (e : E)
  | unboundLocal (name : String)
  deriving DecidableEq, Repr

/-- Observable events of `call_fmp`: an invocation of the wrapped method,
a `logging.error` call, and a `sleep` call. -/
inductive Event (E : Type) where
  | call
  | log (e : E)
  | sleep (t : Nat)
  deriving DecidableEq, Repr

/-- Outcome of running embedded Python code: a normal return or a
propagating exception. -/
inductive PyRes (E V : Type) where
  | ret (v : V)
  | exc (e : PyExc E)
  deriving DecidableEq, Repr

/-- Reading the local `res` at `return res`: an `UnboundLocalError` when it
was never assigned. -/
def returnRes {E V : Type} (res : Option V) : PyRes E V :=
  match res with
  | Option.some v => PyRes.ret v
  | Option.none => PyRes.exc (PyExc.unboundLocal "res")

/-- The `for x in range(0, retries)` loop of `call_fmp`.  `x` is the loop
index, `rem = retries - x` the number of iterations left, `res` the binding
state of the local `res` (`none` = unbound), `evs` the event trace so far.

Each iteration runs the `try` block: on success `res` is assigned and
`str_error` is bound to `None`; on an exception the handler logs and — per
CPython semantics — the `except ... as str_error` binding is deleted when
the handler finishes, leaving `str_error` unbound.  Then `if str_error:`
reads `str_error`: unbound raises `UnboundLocalError`; `None` is falsy, so
the loop breaks and `return res` runs; a bound exception is truthy, so the
code sleeps and retries while `x < retries` and otherwise re-raises. -/
def callFmpLoop {E V : Type} (method : Nat → Except E V) (retries sleep_time : Nat) :
    Nat → Nat → Option V → List (Event E) → PyRes E V × List (Event E)
  | _, 0, res, evs => (returnRes res, evs)
  | x, rem + 1, res, evs =>
      -- the try/except statement: on success `res := method(**params)` and
      -- then `str_error = None`; on an exception the handler logs, and — per
      -- CPython semantics — the `except ... as str_error` binding is deleted
      -- when the handler finishes, leaving `str_error` unbound.
      let step : Option V × Option (Option E) × List (Event E) :=
        match method x with
        | Except.ok v => (Option.some v, Option.some Option.none, evs ++ [Event.call])
        | Except.error e => (res, Option.none, evs ++ [Event.call, Event.log e])
      let res := step.1
      let evs := step.2.2
      -- `if str_error:` reads the local `str_error`
      match step.2.1 with
      | Option.none =>
          -- unbound local: UnboundLocalError propagates
          (PyRes.exc (PyExc.unboundLocal "str_error"), evs)
      | Option.some Option.none =>
          -- bound to None, falsy: `break`, then `return res`
          (returnRes res, evs)
      | Option.some (Option.some e) =>
          -- bound to an exception, truthy
          if x < retries then
            callFmpLoop method retries sleep_time (x + 1) rem res
              (evs ++ [Event.sleep sleep_time])
          else
            (PyRes.exc (PyExc.user e), evs)

/-- `call_fmp(method, params, retries, sleep_time)` from `src/fmp.py`.

The method is an oracle taking the parameter dict it is invoked with and
the attempt index (modelling the nondeterministic network call).  The
in-place mutation of the caller's `params` dict is modelled by returning
the dict alongside the result and the event trace. -/
def call_fmp {E V : Type} (method : Params → Nat → Except E V) (params : Params)
    (retries : Nat := FMP_API_RETRIES) (sleep_time : Nat := FMP_API_SLEEP_TIME) :
    (PyRes E V × List (Event E)) × Params :=
  let params :=
    if ((lookupAssoc params "apikey").getD PyVal.none).truthy then params
    else updateAssoc params "apikey" (PyVal.str FMP_API_KEY)
  (callFmpLoop (method params) retries sleep_time 0 retries Option.none [], params)

/-- Whether an event is an invocation of the wrapped method. -/
def isCall {E : Type} : Event E → Bool
  | Event.call => true
  | _ => false

/-- Number of invocations of the wrapped method recorded in a trace. -/
def countCalls {E : Type} (evs : List (Event E)) : Nat :=
  evs.countP isCall

/-- The `params` dict built for one symbol inside `get_stocks_history`. -/
def mkHistParams (start_str end_str symbol : String) : Params :=
  [("from_date", PyVal.str start_str),
   ("to_date", PyVal.str end_str),
   ("symbol", PyVal.str symbol)]

/-- The dict `call_fmp` actually passes to the API method for one symbol:
`mkHistParams` with the default API key injected. -/
def histCallParams (start_str end_str symbol : String) : Params :=
  updateAssoc (mkHistParams start_str end_str symbol) "apikey" (PyVal.str FMP_API_KEY)

/-- The raw per-symbol API response, as `get_stocks_history` sees it:
`none` models a falsy (empty) response dict, `some l` a dict whose
`"historical"` entry is the record list `l`. -/
abbrev RawResp (R : Type) := Option (List R)

/-- The `for ix, symbol in enumerate(symbols)` loop of
`get_stocks_history`: one retried API call per symbol; a falsy response is
skipped (`continue`); otherwise `hist[symbol]` is set to the
`"historical"` list.  An exception from `call_fmp` propagates. -/
def getStocksHistoryLoop {E R : Type} (oracle : Params → Nat → Except E (RawResp R))
    (start_str end_str : String) :
    List String → List (String × List R) → PyRes E (List (String × List R))
  | [], hist => PyRes.ret hist
  | symbol :: rest, hist =>
      match (call_fmp oracle (mkHistParams start_str end_str symbol)).1.1 with
      | PyRes.exc e => PyRes.exc e
      | PyRes.ret Option.none => getStocksHistoryLoop oracle start_str end_str rest hist
      | PyRes.ret (Option.some l) =>
          getStocksHistoryLoop oracle start_str end_str rest (updateAssoc hist symbol l)

/-- `get_stocks_history(symbols, start, end)` from `src/fmp.py`, with the
date window already rendered to strings (`strftime`) and the FMP API as an
oracle. -/
def get_stocks_history {E R : Type} (oracle : Params → Nat → Except E (RawResp R))
    (symbols : List String) (start_str end_str : String) :
    PyRes E (List (String × List R)) :=
  getStocksHistoryLoop oracle start_str end_str symbols []

/-! ## `src/ingest.py`

A pandas DataFrame holding price history is modelled as a list of column
labels plus one row per table entry; the `(date, symbol)` MultiIndex is
the key of the row, and each row maps a column label to an optional
integer cell (`none` plays the role of NaN, and a label absent from a
row's association list also reads as NaN). -/

/-- A pandas error: a `KeyError` from a missing column, or the
`ValueError` pandas raises when reindexing a duplicated axis. -/
inductive PdErr where
  | keyError (k : String)
  | dupAxis
  deriving DecidableEq, Repr

/-- A price-history DataFrame: value columns (`cols`) and rows keyed by
the `(date, symbol)` index. -/
structure PriceTable where
  cols : List String
  rows : List ((Nat × String) × List (String × Option Int))
  deriving DecidableEq, Repr

/-- One raw API record: its date field (already parsed to a day number;
the source localizes it to UTC) and the remaining numeric fields. -/
structure Rec where
  date : Nat
  fields : List (String × Int)
  deriving DecidableEq, Repr

/-- Append a column label if it is not already present (pandas keeps the
first position of an existing label). -/
def addCol (cs : List String) (c : String) : List String :=
  if c ∈ cs then cs else cs ++ [c]

/-- The value columns of `pd.DataFrame(records)`: the union of the
records' field labels, in first-appearance order. -/
def colUnion (recs : List Rec) : List String :=
  recs.foldl (fun acc r => r.fields.foldl (fun acc2 f => addCol acc2 f.1) acc) []

/-- `convert_price_to_df(raw_price)` from `src/ingest.py`: one row per
record, tagged with its symbol; the `date` and `symbol` columns are
represented by the row key (they become the index downstream). -/
def convert_price_to_df (raw_price : List (String × List Rec)) : PriceTable :=
  { cols := colUnion (raw_price.foldl (fun acc p => acc ++ p.2) []),
    rows := raw_price.foldl
      (fun acc p =>
        acc ++ p.2.map (fun r => ((r.date, p.1), r.fields.map (fun f => (f.1, Option.some f.2)))))
      [] }

/-! ### `gen_asset_metadata` -/

/-- One row of the asset-metadata table. -/
structure MetaRow where
  symbol : String
  start_date : Nat
  end_date : Nat
  exchange : String
  auto_close_date : Nat
  deriving DecidableEq, Repr

/-- Merge one `(symbol, date)` observation into the per-symbol
`(min, max)` aggregation: update the symbol's group in place, or append a
fresh group.  (pandas sorts group keys; the row order of the groups is
irrelevant to every property stated below.) -/
def updateGroup : List (String × Nat × Nat) → String → Nat → List (String × Nat × Nat)
  | [], s, d => [(s, d, d)]
  | (s', mn, mx) :: rest, s, d =>
      if s' = s then (s', min d mn, max d mx) :: rest
      else (s', mn, mx) :: updateGroup rest s d

/-- `data.groupby(by="symbol").agg({"date": [np.min, np.max]})`: the
per-symbol minimum and maximum of the date column. -/
def groupAgg : List (String × Nat) → List (String × Nat × Nat)
  | [] => []
  | (s, d) :: rest => updateGroup (groupAgg rest) s d

/-- `gen_asset_metadata(data, show_progress, exchange)` from
`src/ingest.py`: one row per symbol with its first/last observed date, the
exchange tag, and `auto_close_date = end_date + 1` day. -/
def gen_asset_metadata (data : List (String × Nat)) (show_progress : Bool)
    (exchange : String) : List MetaRow :=
  -- show_progress only triggers a log line in the source
  let _ := show_progress
  (groupAgg data).map (fun g =>
    { symbol := g.1, start_date := g.2.1, end_date := g.2.2,
      exchange := exchange, auto_close_date := g.2.2 + 1 })

/-- The dates observed for one symbol in a `(symbol, date)` table (used to
state the min/max properties of `gen_asset_metadata`). -/
def datesOf (data : List (String × Nat)) (s : String) : List Nat :=
  (data.filter (fun r => r.1 = s)).map Prod.snd

/-! ### `_format_price_history` -/

/-- The columns `_format_price_history` keeps. -/
def colsToKeep : List String := ["open", "high", "low", "close", "volume"]

/-- Read one cell of a row; a label missing from the row is NaN. -/
def cellVal (row : List (String × Option Int)) (c : String) : Option Int :=
  (lookupAssoc row c).getD Option.none

/-- `_format_price_history(price_history)` from `src/ingest.py`:
`close` is overwritten with `adjClose` (a `KeyError` if that column is
absent), every column outside `colsToKeep` is dropped, and a missing
`volume` column is filled with zeroes. -/
def _format_price_history (price_history : PriceTable) :
    Except PdErr PriceTable :=
  if "adjClose" ∈ price_history.cols then
    -- price_history["close"] = price_history["adjClose"]
    let cols := addCol price_history.cols "close"
    let rows := price_history.rows.map
      (fun r => (r.1, updateAssoc r.2 "close" (cellVal r.2 "adjClose")))
    -- drop cols_to_remove = set(columns) - set(cols_to_keep)
    let cols := cols.filter (fun c => c ∈ colsToKeep)
    let rows := rows.map (fun r => (r.1, r.2.filter (fun cell => cell.1 ∈ colsToKeep)))
    -- some assets in FMP don't have volume data
    if "volume" ∈ cols then
      Except.ok { cols := cols, rows := rows }
    else
      Except.ok
        { cols := cols ++ ["volume"],
          rows := rows.map (fun r => (r.1, r.2 ++ [("volume", Option.some 0)])) }
  else
    Except.error (PdErr.keyError "adjClose")

/-! ### `_set_dates_for_calendar` -/

/-- Lexicographic comparison of character lists by code point (the order
pandas uses on Python strings). -/
def charListLt : List Char → List Char → Bool
  | [], [] => false
  | [], _ :: _ => true
  | _ :: _, [] => false
  | c :: cs, d :: ds =>
      if c.val < d.val then true
      else if d.val < c.val then false
      else charListLt cs ds

/-- Strict lexicographic order on strings, by code point. -/
def strLt (a b : String) : Bool :=
  charListLt a.data b.data

/-- Stable insertion of a row into a list sorted by the `(date, symbol)`
index (models `sort_index(level="date")`, which also sorts the remaining
`symbol` level). -/
def insertRowSorted {R : Type} (r : (Nat × String) × R) :
    List ((Nat × String) × R) → List ((Nat × String) × R)
  | [] => [r]
  | r' :: rest =>
      if r'.1.1 < r.1.1 ∨ (r'.1.1 = r.1.1 ∧ strLt r'.1.2 r.1.2) then
        r' :: insertRowSorted r rest
      else r :: r' :: rest

/-- `price_history.sort_index(inplace=True, level="date")`. -/
def sortRows {R : Type} (rows : List ((Nat × String) × R)) :
    List ((Nat × String) × R) :=
  rows.foldr insertRowSorted []

/-- The filter `price_history[~price_history.index.duplicated(keep="first")]`:
keep each row whose index value has not appeared at an earlier position.
`seen` is the set of index values already encountered. -/
def dedupByKey {K R : Type} [DecidableEq K] : List K → List (K × R) → List (K × R)
  | _, [] => []
  | seen, (k, r) :: rest =>
      if k ∈ seen then dedupByKey seen rest
      else (k, r) :: dedupByKey (k :: seen) rest

/-- The duplicate-index filter applied to a whole table. -/
def dropDupIndex {K R : Type} [DecidableEq K] (rows : List (K × R)) : List (K × R) :=
  dedupByKey [] rows

/-- The all-NaN row a reindex inserts for a missing index value. -/
def naRow (cols : List String) : List (String × Option Int) :=
  cols.map (fun c => (c, Option.none))

/-- `df.reindex(indices)`: one output row per requested index value, taken
from the table when present and all-NaN otherwise; pandas raises a
`ValueError` when the table's own index has duplicates. -/
def reindexRows (rows : List ((Nat × String) × List (String × Option Int)))
    (cols : List String) (indices : List (Nat × String)) :
    Except PdErr (List ((Nat × String) × List (String × Option Int))) :=
  if (rows.map Prod.fst).Nodup then
    Except.ok (indices.map (fun k => (k, (lookupAssoc rows k).getD (naRow cols))))
  else
    Except.error PdErr.dupAxis

/-- `_set_dates_for_calendar(price_history, calendar, start, end,
symbol_map)` from `src/ingest.py`.  The trading calendar is an oracle
mapping a `(start, end)` window to its session list.  The rows are set to
the `(date, symbol)` MultiIndex (already the row key in this model),
sorted, deduplicated, and reindexed against every `(session, symbol)`
pair. -/
def _set_dates_for_calendar (price_history : PriceTable)
    (calendar : Nat → Nat → List Nat) (start end_ : Nat)
    (symbol_map : List String) : Except PdErr PriceTable :=
  let sessions := calendar start end_
  let sorted := sortRows price_history.rows
  -- FMP sometimes returns a date twice for the same symbol
  let deduped := dropDupIndex sorted
  let indices := sessions.foldr
    (fun date acc => symbol_map.map (fun symbol => (date, symbol)) ++ acc) []
  match reindexRows deduped price_history.cols indices with
  | Except.ok rows => Except.ok { cols := price_history.cols, rows := rows }
  | Except.error e => Except.error e

/-! ### `parse_pricing_and_vol` and `ingest_fmp` -/

/-- `data.xs(symbol, level="symbol")`: the rows of one symbol, with the
symbol level dropped from the index. -/
def xsSymbol (t : PriceTable) (symbol : String) :
    List (Nat × List (String × Option Int)) :=
  (t.rows.filter (fun r => r.1.2 = symbol)).map (fun r => (r.1.1, r.2))

/-- `parse_pricing_and_vol(data, calendar, start, end, symbol_map)` from
`src/ingest.py`: align the table to the calendar, format it, and yield one
`(asset_id, per-symbol table)` pair per entry of the symbol map. -/
def parse_pricing_and_vol (data : PriceTable) (calendar : Nat → Nat → List Nat)
    (start end_ : Nat) (symbol_map : List String) :
    Except PdErr (List (Nat × List (Nat × List (String × Option Int)))) :=
  match _set_dates_for_calendar data calendar start end_ symbol_map with
  | Except.error e => Except.error e
  | Except.ok d =>
      match _format_price_history d with
      | Except.error e => Except.error e
      | Except.ok d2 =>
          Except.ok (symbol_map.enum.map (fun p => (p.1, xsSymbol d2 p.2)))

/-- A plain DataFrame with homogeneous cells, used for the exchanges table
and the adjustment tables. -/
structure SimpleFrame (α : Type) where
  columns : List String
  rows : List (List α)
  deriving DecidableEq, Repr

/-- Stepping stone keeping instance-search terms small for the nested
row-list type of the per-asset daily bars. -/
instance : DecidableEq (List (Nat × List (String × Option Int))) := inferInstance

/-- The tables `ingest_fmp` hands to its writer sinks. -/
structure IngestOutput where
  equities : List MetaRow
  exchanges : SimpleFrame String
  daily_bars : List (Nat × List (Nat × List (String × Option Int)))
  splits : SimpleFrame Int
  dividends : SimpleFrame Int
  deriving DecidableEq, Repr

/-- An exception propagating out of `ingest_fmp`: one from the API client,
or a pandas error from the reshaping stage. -/
inductive IngestExc (E : Type) where
  | py (e : PyExc E)
  | pandas (e : PdErr)
  deriving DecidableEq, Repr

/-- Models `end.strftime(FMP_DATE_FORMAT)`: an injective rendering of the
model's day numbers. -/
def fmtDate (d : Nat) : String := toString d

/-- `ingest_fmp(...)` from `src/ingest.py`, with the FMP API, the trading
calendar, and the current clock (`pd.Timestamp.now`) as oracles.  Returns
the tables handed to the asset-db writer, the daily-bar writer and the
adjustment writer, or the exception aborting the run. -/
def ingest_fmp {E : Type} (oracle : Params → Nat → Except E (RawResp Rec))
    (calendar : Nat → Nat → List Nat) (now : Nat) (show_progress : Bool) :
    Except (IngestExc E) IngestOutput :=
  let exchange := ["US Equities", "NYSE", "US"]
  let period := 100
  let stocks := ["QQQ", "SPY"]
  let end_ := now
  let start := now - period
  match get_stocks_history oracle stocks (fmtDate start) (fmtDate end_) with
  | PyRes.exc e => Except.error (IngestExc.py e)
  | PyRes.ret raw_data =>
      let raw_data_df := convert_price_to_df raw_data
      -- raw_data_df[["symbol", "date"]]
      let asset_metadata := gen_asset_metadata
        (raw_data_df.rows.map (fun r => (r.1.2, r.1.1))) show_progress
        (exchange.headD "")
      let exchanges : SimpleFrame String :=
        { columns := ["exchange", "canonical_name", "country_code"],
          rows := [exchange] }
      let symbol_map := asset_metadata.map MetaRow.symbol
      match parse_pricing_and_vol raw_data_df calendar start end_ symbol_map with
      | Except.error e => Except.error (IngestExc.pandas e)
      | Except.ok parsed =>
          let splits_df : SimpleFrame Int :=
            { columns := ["sid", "ratio", "effective_date"], rows := [] }
          let dividends_df : SimpleFrame Int :=
            { columns := ["sid", "record_date", "declared_date", "pay_date",
                          "amount", "ex_date"],
              rows := [] }
          Except.ok
            { equities := asset_metadata, exchanges := exchanges,
              daily_bars := parsed, splits := splits_df,
              dividends := dividends_df }

/-- A demonstration FMP oracle: every call succeeds with one record
carrying only an `adjClose` field. -/
def demoOracle : Params → Nat → Except Unit (RawResp Rec) :=
  fun _ _ => Except.ok (Option.some [{ date := 95, fields := [("adjClose", 7)] }])

/-- A demonstration trading calendar with two sessions. -/
def demoCalendar : Nat → Nat → List Nat :=
  fun _ _ => [95, 96]

/-- The output of a successful demonstration run of `ingest_fmp`. -/
def demoIngestOut : IngestOutput :=
  match ingest_fmp demoOracle demoCalendar 100 false with
  | Except.ok out => out
  | Except.error _ =>
      { equities := [], exchanges := { columns := [], rows := [] },
        daily_bars := [], splits := { columns := [], rows := [] },
        dividends := { columns := [], rows := [] } }

/-! ## Association-list lemmas -/

theorem lookupAssoc_updateAssoc_self {K V : Type} [DecidableEq K]
    (l : List (K × V)) (k : K) (v : V) :
    lookupAssoc (updateAssoc l k v) k = Option.some v := by
  induction l with
  | nil => simp [updateAssoc, lookupAssoc]
  | cons hd tl ih =>
      obtain ⟨k0, v0⟩ := hd
      by_cases hk : k0 = k
      · subst hk
        simp only [updateAssoc, eq_self_iff_true, if_true, lookupAssoc]
      · simp [updateAssoc, lookupAssoc, hk, ih]

theorem mem_keys_updateAssoc {K V : Type} [DecidableEq K]
    (l : List (K × V)) (k : K) (v : V) (k' : K) :
    k' ∈ (updateAssoc l k v).map Prod.fst ↔ k' ∈ l.map Prod.fst ∨ k' = k := by
  induction l with
  | nil => simp [updateAssoc]
  | cons hd tl ih =>
      obtain ⟨k0, v0⟩ := hd
      by_cases hk : k0 = k
      · subst hk
        simp only [updateAssoc, eq_self_iff_true, if_true, List.map_cons, List.mem_cons]
        tauto
      · simp only [updateAssoc, if_neg hk, List.map_cons, List.mem_cons, ih]
        tauto

theorem nodup_keys_updateAssoc {K V : Type} [DecidableEq K]
    (l : List (K × V)) (k : K) (v : V) (h : (l.map Prod.fst).Nodup) :
    ((updateAssoc l k v).map Prod.fst).Nodup := by
  induction l with
  | nil => simp [updateAssoc]
  | cons hd tl ih =>
      obtain ⟨k0, v0⟩ := hd
      simp only [List.map_cons, List.nodup_cons] at h
      by_cases hk : k0 = k
      · subst hk
        simp only [updateAssoc, eq_self_iff_true, if_true, List.map_cons, List.nodup_cons]
        exact ⟨h.1, h.2⟩
      · simp only [updateAssoc, if_neg hk, List.map_cons, List.nodup_cons]
        refine ⟨fun hmem => ?_, ih h.2⟩
        rcases (mem_keys_updateAssoc tl k v k0).1 hmem with hin | heq
        · exact h.1 hin
        · exact hk heq

/-! ## Lemmas about the retry loop of `call_fmp` -/

theorem callFmpLoop_calls_le {E V : Type} (method : Nat → Except E V)
    (retries sleep_time : Nat) :
    ∀ (rem x : Nat) (res : Option V) (evs : List (Event E)),
      countCalls (callFmpLoop method retries sleep_time x rem res evs).2 ≤
        countCalls evs + rem := by
  intro rem
  induction rem with
  | zero => intro x res evs; simp [callFmpLoop]
  | succ n ih =>
      intro x res evs
      simp only [callFmpLoop]
      cases hm : method x with
      | ok v => simp [countCalls, List.countP_append, isCall]
      | error e => simp [countCalls, List.countP_append, isCall]

/-- C3: for every retries value, `call_fmp` invokes the supplied method at
most `retries` times before control (a value or an exception) returns to
the caller. -/
theorem call_fmp_method_calls_le_retries {E V : Type}
    (method : Params → Nat → Except E V) (params : Params)
    (retries sleep_time : Nat) :
    countCalls (call_fmp method params retries sleep_time).1.2 ≤ retries := by
  unfold call_fmp
  simpa [countCalls] using
    callFmpLoop_calls_le
      (method (if ((lookupAssoc params "apikey").getD PyVal.none).truthy then params
               else updateAssoc params "apikey" (PyVal.str FMP_API_KEY)))
      retries sleep_time retries 0 Option.none []

/-- C1 (failing run): with `retries = 2` and a method that raises on every
attempt, `call_fmp` raises `UnboundLocalError` for `str_error` right after
the first failed attempt — it logs once, never sleeps, never retries, and
does not re-raise the method's own exception.  (CPython deletes the
`except ... as str_error` binding when the handler finishes, so the
subsequent `if str_error:` reads an unbound local.) -/
theorem call_fmp_all_fail_raises_unbound_local :
    call_fmp (E := Unit) (V := Nat) (fun _ _ => Except.error ()) [] 2 70 =
      ((PyRes.exc (PyExc.unboundLocal "str_error"),
        [Event.call, Event.log ()]),
       [("apikey", PyVal.str FMP_API_KEY)]) := by
  rfl

/-- C10: with `retries = 0` the loop body never runs: the method is never
invoked (the trace is empty) and `return res` reads the never-assigned
local `res`, raising `UnboundLocalError` instead of returning. -/
theorem call_fmp_zero_retries {E V : Type}
    (method : Params → Nat → Except E V) (params : Params) (sleep_time : Nat) :
    (call_fmp method params 0 sleep_time).1 =
      (PyRes.exc (PyExc.unboundLocal "res"), ([] : List (Event E))) := by
  rfl

/-- C9: `call_fmp` mutates the caller's `params` dict: when the `"apikey"`
entry is absent or falsy the dict afterwards binds `"apikey"` to the
default key, and when it is truthy the dict is left unchanged. -/
theorem call_fmp_apikey_mutation {E V : Type}
    (method : Params → Nat → Except E V) (params : Params)
    (retries sleep_time : Nat) :
    (((lookupAssoc params "apikey").getD PyVal.none).truthy = false →
      lookupAssoc (call_fmp method params retries sleep_time).2 "apikey" =
        Option.some (PyVal.str FMP_API_KEY)) ∧
    (((lookupAssoc params "apikey").getD PyVal.none).truthy = true →
      (call_fmp method params retries sleep_time).2 = params) := by
  constructor
  · intro h
    simp [call_fmp, h, lookupAssoc_updateAssoc_self]
  · intro h
    simp [call_fmp, h]

/-- Witness for C9 at a dict without an `"apikey"` entry. -/
theorem call_fmp_apikey_mutation_witness :
    ((lookupAssoc ([("symbol", PyVal.str "QQQ")] : Params) "apikey").getD
        PyVal.none).truthy = false ∧
    lookupAssoc
        (call_fmp (E := Unit) (V := Nat) (fun _ _ => Except.ok 0)
          [("symbol", PyVal.str "QQQ")] 2 70).2 "apikey" =
      Option.some (PyVal.str FMP_API_KEY) := by
  refine ⟨by decide, ?_⟩
  exact (call_fmp_apikey_mutation (fun _ _ => Except.ok 0)
    [("symbol", PyVal.str "QQQ")] 2 70).1 (by decide)

/-! ## `get_stocks_history` (claim C2) -/

theorem callFmpLoop_first_ok {E V : Type} (method : Nat → Except E V)
    (retries sleep_time x rem : Nat) (res : Option V) (evs : List (Event E))
    (v : V) (hm : method x = Except.ok v) :
    callFmpLoop method retries sleep_time x (rem + 1) res evs =
      (PyRes.ret v, evs ++ [Event.call]) := by
  simp [callFmpLoop, hm, returnRes]

/-- A `get_stocks_history`-shaped call whose first attempt succeeds returns
the attempt's value. -/
theorem call_fmp_hist_first_ok {E R : Type}
    (oracle : Params → Nat → Except E (RawResp R)) (st en symbol : String)
    (sleep_time : Nat) (v : RawResp R)
    (h : oracle (histCallParams st en symbol) 0 = Except.ok v) :
    (call_fmp oracle (mkHistParams st en symbol) FMP_API_RETRIES sleep_time).1.1 =
      PyRes.ret v := by
  have hloop := callFmpLoop_first_ok (oracle (histCallParams st en symbol))
    FMP_API_RETRIES sleep_time 0 1 Option.none [] v h
  exact congrArg (fun p => p.1) hloop

theorem getStocksHistoryLoop_all_ok {E R : Type}
    (oracle : Params → Nat → Except E (RawResp R)) (st en : String)
    (f : String → List R) :
    ∀ (symbols : List String) (hist : List (String × List R)),
      (∀ s ∈ symbols, oracle (histCallParams st en s) 0 =
        Except.ok (Option.some (f s))) →
      ∃ out, getStocksHistoryLoop oracle st en symbols hist = PyRes.ret out ∧
        ((hist.map Prod.fst).Nodup → (out.map Prod.fst).Nodup) ∧
        (∀ s, s ∈ out.map Prod.fst ↔ s ∈ hist.map Prod.fst ∨ s ∈ symbols) := by
  intro symbols
  induction symbols with
  | nil =>
      intro hist _
      exact ⟨hist, rfl, fun hn => hn, by simp⟩
  | cons symbol rest ih =>
      intro hist h
      have hcall := call_fmp_hist_first_ok oracle st en symbol FMP_API_SLEEP_TIME
        (Option.some (f symbol)) (h symbol (List.mem_cons_self symbol rest))
      obtain ⟨out, hout, hnd, hmem⟩ :=
        ih (updateAssoc hist symbol (f symbol))
          (fun s hs => h s (List.mem_cons_of_mem _ hs))
      refine ⟨out, ?_, ?_, ?_⟩
      · simp only [getStocksHistoryLoop]
        rw [hcall]
        exact hout
      · intro hn
        exact hnd (nodup_keys_updateAssoc hist symbol (f symbol) hn)
      · intro s
        rw [hmem s, mem_keys_updateAssoc]
        simp only [List.mem_cons]
        tauto

/-- C2 (counterexample): a single symbol whose API call succeeds but
returns a falsy (empty) response is skipped, so the returned mapping has
no entry for it at all. -/
theorem get_stocks_history_empty_response_drops_symbol :
    get_stocks_history (E := Unit) (R := Nat) (fun _ _ => Except.ok Option.none)
        ["AAPL"] "2020-01-01" "2020-04-10" = PyRes.ret [] ∧
    "AAPL" ∉ (([] : List (String × List Nat)).map Prod.fst) :=
  ⟨rfl, by simp⟩

/-- C2 (amended): when no API call raises and every response is non-empty,
the returned mapping has exactly one entry per symbol of the list (its
keys are exactly the symbols, without duplicates). -/
theorem get_stocks_history_one_entry_per_symbol {E R : Type}
    (oracle : Params → Nat → Except E (RawResp R)) (symbols : List String)
    (st en : String) (f : String → List R)
    (h : ∀ s ∈ symbols, oracle (histCallParams st en s) 0 =
      Except.ok (Option.some (f s))) :
    ∃ hist, get_stocks_history oracle symbols st en = PyRes.ret hist ∧
      (hist.map Prod.fst).Nodup ∧ ∀ s, s ∈ hist.map Prod.fst ↔ s ∈ symbols := by
  obtain ⟨out, hout, hnd, hmem⟩ :=
    getStocksHistoryLoop_all_ok oracle st en f symbols [] h
  exact ⟨out, hout, hnd (by simp), fun s => by simpa using hmem s⟩

/-- Witness for the amended C2 on the two-symbol list with constant
non-empty responses. -/
theorem get_stocks_history_one_entry_witness :
    ∃ hist, get_stocks_history (E := Unit) (R := Nat)
        (fun _ _ => Except.ok (Option.some [42])) ["QQQ", "SPY"]
        "2020-01-01" "2020-04-10" = PyRes.ret hist ∧
      (hist.map Prod.fst).Nodup ∧
      ∀ s, s ∈ hist.map Prod.fst ↔ s ∈ ["QQQ", "SPY"] :=
  get_stocks_history_one_entry_per_symbol (fun _ _ => Except.ok (Option.some [42]))
    ["QQQ", "SPY"] "2020-01-01" "2020-04-10" (fun _ => [42]) (fun _ _ => rfl)

/-! ## The duplicate-index filter (claim C4) -/

theorem keys_dedupByKey_not_mem_seen {K R : Type} [DecidableEq K] :
    ∀ (l : List (K × R)) (seen : List K) (k : K),
      k ∈ (dedupByKey seen l).map Prod.fst → k ∉ seen := by
  intro l
  induction l with
  | nil => intro seen k hk; simp [dedupByKey] at hk
  | cons hd tl ih =>
      intro seen k hk
      obtain ⟨k0, r0⟩ := hd
      by_cases hs : k0 ∈ seen
      · simp only [dedupByKey, if_pos hs] at hk
        exact ih seen k hk
      · simp only [dedupByKey, if_neg hs, List.map_cons, List.mem_cons] at hk
        rcases hk with rfl | hk
        · exact hs
        · intro hkseen
          exact ih (k0 :: seen) k hk (List.mem_cons_of_mem _ hkseen)

theorem nodup_keys_dedupByKey {K R : Type} [DecidableEq K] :
    ∀ (l : List (K × R)) (seen : List K),
      ((dedupByKey seen l).map Prod.fst).Nodup := by
  intro l
  induction l with
  | nil => intro seen; simp [dedupByKey]
  | cons hd tl ih =>
      intro seen
      obtain ⟨k0, r0⟩ := hd
      by_cases hs : k0 ∈ seen
      · simp only [dedupByKey, if_pos hs]
        exact ih seen
      · simp only [dedupByKey, if_neg hs, List.map_cons, List.nodup_cons]
        refine ⟨fun hmem => ?_, ih (k0 :: seen)⟩
        exact keys_dedupByKey_not_mem_seen tl (k0 :: seen) k0 hmem
          (List.mem_cons_self k0 seen)

theorem dedupByKey_eq_self {K R : Type} [DecidableEq K] :
    ∀ (l : List (K × R)) (seen : List K),
      (∀ k ∈ l.map Prod.fst, k ∉ seen) → (l.map Prod.fst).Nodup →
      dedupByKey seen l = l := by
  intro l
  induction l with
  | nil => intro seen _ _; rfl
  | cons hd tl ih =>
      intro seen hdisj hnd
      obtain ⟨k0, r0⟩ := hd
      simp only [List.map_cons, List.nodup_cons] at hnd
      have hk0 : k0 ∉ seen := hdisj k0 (by simp)
      simp only [dedupByKey, if_neg hk0]
      congr 1
      refine ih (k0 :: seen) ?_ hnd.2
      intro k hk hmem
      rcases List.mem_cons.1 hmem with rfl | hkseen
      · exact hnd.1 hk
      · exact hdisj k (List.mem_cons_of_mem _ hk) hkseen

/-- C4: the duplicate-index filter is idempotent on `(date, symbol)`-indexed
price tables: applied to its own output it changes nothing. -/
theorem dropDupIndex_idempotent
    (rows : List ((Nat × String) × List (String × Option Int))) :
    dropDupIndex (dropDupIndex rows) = dropDupIndex rows := by
  unfold dropDupIndex
  refine dedupByKey_eq_self _ [] (fun k _ => by simp) ?_
  exact nodup_keys_dedupByKey rows []

/-! ## Reindexing row count (claim C5) -/

theorem sessions_product_length (sessions : List Nat) (symbol_map : List String) :
    (sessions.foldr
      (fun date acc => symbol_map.map (fun symbol => (date, symbol)) ++ acc)
      ([] : List (Nat × String))).length =
      sessions.length * symbol_map.length := by
  induction sessions with
  | nil => simp
  | cons d rest ih =>
      simp [List.length_append, ih, Nat.succ_mul, Nat.add_comm]

/-- C5: on a deduplicated price table, `_set_dates_for_calendar` succeeds
and returns exactly `N * M` rows, where `N` is the number of calendar
sessions in the window and `M` the number of symbols. -/
theorem set_dates_for_calendar_row_count (price_history : PriceTable)
    (calendar : Nat → Nat → List Nat) (start end_ : Nat)
    (symbol_map : List String)
    (hdedup : (price_history.rows.map Prod.fst).Nodup) :
    ∃ out, _set_dates_for_calendar price_history calendar start end_ symbol_map =
        Except.ok out ∧
      out.rows.length = (calendar start end_).length * symbol_map.length := by
  simp only [_set_dates_for_calendar, reindexRows, dropDupIndex]
  rw [if_pos (nodup_keys_dedupByKey (sortRows price_history.rows) [])]
  refine ⟨_, rfl, ?_⟩
  simp [sessions_product_length]

/-- Witness for C5 on a one-row table, three sessions and two symbols. -/
theorem set_dates_for_calendar_row_count_witness :
    ((({ cols := ["adjClose"],
         rows := [((1, "A"), [("adjClose", Option.some 5)])] } :
        PriceTable).rows.map Prod.fst).Nodup) ∧
    (∃ out, _set_dates_for_calendar
        { cols := ["adjClose"],
          rows := [((1, "A"), [("adjClose", Option.some 5)])] }
        (fun _ _ => [1, 2, 3]) 0 9 ["A", "B"] = Except.ok out ∧
      out.rows.length = ((fun (_ _ : Nat) => [1, 2, 3]) 0 9).length * (["A", "B"]).length) :=
  ⟨by decide,
   set_dates_for_calendar_row_count
     { cols := ["adjClose"], rows := [((1, "A"), [("adjClose", Option.some 5)])] }
     (fun _ _ => [1, 2, 3]) 0 9 ["A", "B"] (by decide)⟩

/-! ## `gen_asset_metadata` (claim C6) -/

theorem mem_keys_updateGroup (g : List (String × Nat × Nat)) (s : String) (d : Nat)
    (k : String) :
    k ∈ (updateGroup g s d).map Prod.fst ↔ k ∈ g.map Prod.fst ∨ k = s := by
  induction g with
  | nil => simp [updateGroup]
  | cons hd tl ih =>
      obtain ⟨s0, mn0, mx0⟩ := hd
      by_cases hs : s0 = s
      · subst hs
        simp only [updateGroup, eq_self_iff_true, if_true, List.map_cons,
          List.mem_cons]
        tauto
      · simp only [updateGroup, if_neg hs, List.map_cons, List.mem_cons, ih]
        tauto

theorem nodup_keys_updateGroup (g : List (String × Nat × Nat)) (s : String)
    (d : Nat) (h : (g.map Prod.fst).Nodup) :
    ((updateGroup g s d).map Prod.fst).Nodup := by
  induction g with
  | nil => simp [updateGroup]
  | cons hd tl ih =>
      obtain ⟨s0, mn0, mx0⟩ := hd
      simp only [List.map_cons, List.nodup_cons] at h
      by_cases hs : s0 = s
      · subst hs
        simp only [updateGroup, eq_self_iff_true, if_true, List.map_cons,
          List.nodup_cons]
        exact ⟨h.1, h.2⟩
      · simp only [updateGroup, if_neg hs, List.map_cons, List.nodup_cons]
        refine ⟨fun hmem => ?_, ih h.2⟩
        rcases (mem_keys_updateGroup tl s d s0).1 hmem with hin | heq
        · exact h.1 hin
        · exact hs heq

theorem updateGroup_entries (g : List (String × Nat × Nat)) (s : String) (d : Nat)
    (hnd : (g.map Prod.fst).Nodup) :
    ∀ e ∈ updateGroup g s d,
      (e.1 ≠ s ∧ e ∈ g) ∨
      (e.1 = s ∧
        ((s ∉ g.map Prod.fst ∧ e.2 = (d, d)) ∨
         (∃ mn mx, (s, mn, mx) ∈ g ∧ e.2 = (min d mn, max d mx)))) := by
  induction g with
  | nil =>
      intro e he
      simp only [updateGroup, List.mem_singleton] at he
      subst he
      exact Or.inr ⟨rfl, Or.inl ⟨by simp, rfl⟩⟩
  | cons hd tl ih =>
      intro e he
      obtain ⟨s0, mn0, mx0⟩ := hd
      simp only [List.map_cons, List.nodup_cons] at hnd
      by_cases hs : s0 = s
      · subst hs
        simp only [updateGroup, eq_self_iff_true, if_true, List.mem_cons] at he
        rcases he with rfl | he
        · exact Or.inr ⟨rfl, Or.inr ⟨mn0, mx0, List.mem_cons_self _ _, rfl⟩⟩
        · refine Or.inl ⟨fun heq => ?_, List.mem_cons_of_mem _ he⟩
          exact hnd.1 (heq ▸ List.mem_map_of_mem Prod.fst he)
      · simp only [updateGroup, if_neg hs, List.mem_cons] at he
        rcases he with rfl | he
        · exact Or.inl ⟨hs, List.mem_cons_self _ _⟩
        · rcases ih hnd.2 e he with ⟨hne, hmem⟩ | ⟨heq, hcase⟩
          · exact Or.inl ⟨hne, List.mem_cons_of_mem _ hmem⟩
          · refine Or.inr ⟨heq, ?_⟩
            rcases hcase with ⟨hnotin, he2⟩ | ⟨mn, mx, hmemg, he2⟩
            · refine Or.inl ⟨?_, he2⟩
              simp only [List.map_cons, List.mem_cons]
              rintro (h | h)
              · exact hs h.symm
              · exact hnotin h
            · exact Or.inr ⟨mn, mx, List.mem_cons_of_mem _ hmemg, he2⟩

theorem datesOf_nil (s : String) : datesOf [] s = [] := rfl

theorem datesOf_cons_self (s : String) (d : Nat) (tl : List (String × Nat)) :
    datesOf ((s, d) :: tl) s = d :: datesOf tl s := by
  simp [datesOf]

theorem datesOf_cons_ne (s s' : String) (d : Nat) (tl : List (String × Nat))
    (h : s' ≠ s) : datesOf ((s, d) :: tl) s' = datesOf tl s' := by
  have hc : ¬(s = s') := fun hc => h hc.symm
  simp [datesOf, hc]

theorem datesOf_eq_nil_of_not_mem (data : List (String × Nat)) (s : String)
    (h : s ∉ data.map Prod.fst) : datesOf data s = [] := by
  induction data with
  | nil => rfl
  | cons hd tl ih =>
      obtain ⟨s0, d0⟩ := hd
      simp only [List.map_cons, List.mem_cons] at h
      push_neg at h
      rw [datesOf_cons_ne s0 s d0 tl h.1]
      exact ih h.2

theorem groupAgg_spec (data : List (String × Nat)) :
    ((groupAgg data).map Prod.fst).Nodup ∧
    (∀ k, k ∈ (groupAgg data).map Prod.fst ↔ k ∈ data.map Prod.fst) ∧
    (∀ e ∈ groupAgg data,
      e.2.1 ∈ datesOf data e.1 ∧ e.2.2 ∈ datesOf data e.1 ∧
      ∀ d ∈ datesOf data e.1, e.2.1 ≤ d ∧ d ≤ e.2.2) := by
  induction data with
  | nil => exact ⟨by simp [groupAgg], by simp [groupAgg], by simp [groupAgg]⟩
  | cons hd tl ih =>
      obtain ⟨s, d⟩ := hd
      obtain ⟨ihnd, ihkeys, ihent⟩ := ih
      refine ⟨nodup_keys_updateGroup _ s d ihnd, ?_, ?_⟩
      · intro k
        rw [show groupAgg ((s, d) :: tl) = updateGroup (groupAgg tl) s d from rfl,
          mem_keys_updateGroup, ihkeys k]
        simp only [List.map_cons, List.mem_cons]
        tauto
      · intro e he
        obtain ⟨es, emn, emx⟩ := e
        rcases updateGroup_entries (groupAgg tl) s d ihnd _ he with
          ⟨hne, hmem⟩ | ⟨heq, hcase⟩
        · simp only at hne
          rw [datesOf_cons_ne s es d tl hne]
          exact ihent _ hmem
        · simp only at heq
          subst heq
          rw [datesOf_cons_self es d tl]
          rcases hcase with ⟨hnotin, he2⟩ | ⟨mn, mx, hmemg, he2⟩
          · have hnil : datesOf tl es = [] :=
              datesOf_eq_nil_of_not_mem tl es (fun hc => hnotin ((ihkeys es).2 hc))
            simp only [Prod.mk.injEq] at he2
            rw [hnil, he2.1, he2.2]
            refine ⟨List.mem_cons_self _ _, List.mem_cons_self _ _, ?_⟩
            intro d' hd'
            rcases List.mem_cons.1 hd' with rfl | h
            · exact ⟨Nat.le_refl _, Nat.le_refl _⟩
            · exact absurd h (by simp)
          · simp only [Prod.mk.injEq] at he2
            obtain ⟨hinv1, hinv2, hinv3⟩ := ihent (es, mn, mx) hmemg
            rw [he2.1, he2.2]
            refine ⟨?_, ?_, ?_⟩
            · show min d mn ∈ d :: datesOf tl es
              rcases Nat.le_total d mn with hle | hle
              · rw [min_eq_left hle]; exact List.mem_cons_self _ _
              · rw [min_eq_right hle]; exact List.mem_cons_of_mem _ hinv1
            · show max d mx ∈ d :: datesOf tl es
              rcases Nat.le_total d mx with hle | hle
              · rw [max_eq_right hle]; exact List.mem_cons_of_mem _ hinv2
              · rw [max_eq_left hle]; exact List.mem_cons_self _ _
            · intro d' hd'
              rcases List.mem_cons.1 hd' with rfl | h
              · exact ⟨min_le_left _ _, le_max_left _ _⟩
              · obtain ⟨h1, h2⟩ := hinv3 d' h
                exact ⟨Nat.le_trans (min_le_right _ _) h1,
                  Nat.le_trans h2 (le_max_right _ _)⟩

/-- C6: `gen_asset_metadata` returns one row per distinct symbol of the
input; each row's `start_date`/`end_date` are that symbol's minimum and
maximum observed dates, its `exchange` is the given tag, and its
`auto_close_date` is `end_date` plus one day. -/
theorem gen_asset_metadata_one_row_per_symbol (data : List (String × Nat))
    (show_progress : Bool) (exchange : String) (hne : data ≠ []) :
    ((gen_asset_metadata data show_progress exchange).map MetaRow.symbol).Nodup ∧
    (∀ s, s ∈ (gen_asset_metadata data show_progress exchange).map MetaRow.symbol ↔
      s ∈ data.map Prod.fst) ∧
    (∀ row ∈ gen_asset_metadata data show_progress exchange,
      row.start_date ∈ datesOf data row.symbol ∧
      row.end_date ∈ datesOf data row.symbol ∧
      (∀ d ∈ datesOf data row.symbol, row.start_date ≤ d ∧ d ≤ row.end_date) ∧
      row.exchange = exchange ∧
      row.auto_close_date = row.end_date + 1) := by
  obtain ⟨hnd, hkeys, hent⟩ := groupAgg_spec data
  have hmap : (gen_asset_metadata data show_progress exchange).map MetaRow.symbol =
      (groupAgg data).map Prod.fst := by
    simp [gen_asset_metadata, List.map_map, Function.comp]
  refine ⟨hmap ▸ hnd, fun s => by rw [hmap]; exact hkeys s, ?_⟩
  intro row hrow
  simp only [gen_asset_metadata, List.mem_map] at hrow
  obtain ⟨g, hg, hrow⟩ := hrow
  obtain ⟨hinv1, hinv2, hinv3⟩ := hent g hg
  subst hrow
  exact ⟨hinv1, hinv2, hinv3, rfl, rfl⟩

/-- Witness for C6 on a three-row table with two symbols. -/
theorem gen_asset_metadata_one_row_per_symbol_witness :
    ([(("A" : String), (3 : Nat)), ("A", 1), ("B", 2)] ≠ []) ∧
    (((gen_asset_metadata [("A", 3), ("A", 1), ("B", 2)] false "US Equities").map
        MetaRow.symbol).Nodup ∧
     (∀ s, s ∈ (gen_asset_metadata [("A", 3), ("A", 1), ("B", 2)] false
          "US Equities").map MetaRow.symbol ↔
        s ∈ ([(("A" : String), (3 : Nat)), ("A", 1), ("B", 2)]).map Prod.fst) ∧
     (∀ row ∈ gen_asset_metadata [("A", 3), ("A", 1), ("B", 2)] false "US Equities",
        row.start_date ∈ datesOf [("A", 3), ("A", 1), ("B", 2)] row.symbol ∧
        row.end_date ∈ datesOf [("A", 3), ("A", 1), ("B", 2)] row.symbol ∧
        (∀ d ∈ datesOf [("A", 3), ("A", 1), ("B", 2)] row.symbol,
          row.start_date ≤ d ∧ d ≤ row.end_date) ∧
        row.exchange = "US Equities" ∧
        row.auto_close_date = row.end_date + 1)) :=
  ⟨by decide,
   gen_asset_metadata_one_row_per_symbol [("A", 3), ("A", 1), ("B", 2)] false
     "US Equities" (by decide)⟩

/-! ## `_format_price_history` (claim C7) -/

theorem lookupAssoc_filter_keep {V : Type} (l : List (String × V)) (c : String)
    (hc : c ∈ colsToKeep) :
    lookupAssoc (l.filter (fun cell => cell.1 ∈ colsToKeep)) c = lookupAssoc l c := by
  induction l with
  | nil => rfl
  | cons hd tl ih =>
      obtain ⟨k0, v0⟩ := hd
      by_cases hk : k0 = c
      · subst hk
        simp [List.filter_cons, hc, lookupAssoc]
      · by_cases hpk : k0 ∈ colsToKeep
        · simp [List.filter_cons, hpk, lookupAssoc, hk, ih]
        · simp [List.filter_cons, hpk, lookupAssoc, hk, ih]

theorem lookupAssoc_append_left {K V : Type} [DecidableEq K]
    (l l2 : List (K × V)) (k : K) (v : V) (h : lookupAssoc l k = Option.some v) :
    lookupAssoc (l ++ l2) k = Option.some v := by
  induction l with
  | nil => exact absurd h (by simp [lookupAssoc])
  | cons hd tl ih =>
      obtain ⟨k0, v0⟩ := hd
      by_cases hk : k0 = k
      · simp only [lookupAssoc, if_pos hk] at h
        simp only [List.cons_append, lookupAssoc, if_pos hk]
        exact h
      · simp only [lookupAssoc, if_neg hk] at h
        simp only [List.cons_append, lookupAssoc, if_neg hk]
        exact ih h

/-- The `close` cell of a row after the close-assignment and the
column-drop of `_format_price_history`. -/
theorem lookupAssoc_close_after_format (row : List (String × Option Int))
    (v : Option Int) :
    lookupAssoc ((updateAssoc row "close" v).filter
      (fun cell => cell.1 ∈ colsToKeep)) "close" = Option.some v := by
  rw [lookupAssoc_filter_keep _ "close" (by decide)]
  exact lookupAssoc_updateAssoc_self row "close" v

/-- C7: on every table with an `adjClose` column, `_format_price_history`
succeeds and its `close` column equals, row for row, the input's
`adjClose` column. -/
theorem format_price_history_close_is_adjClose (price_history : PriceTable)
    (h : "adjClose" ∈ price_history.cols) :
    ∃ out, _format_price_history price_history = Except.ok out ∧
      out.rows.map (fun r => cellVal r.2 "close") =
        price_history.rows.map (fun r => cellVal r.2 "adjClose") := by
  simp only [_format_price_history, if_pos h]
  by_cases hv :
      "volume" ∈ (addCol price_history.cols "close").filter (fun c => c ∈ colsToKeep)
  · rw [if_pos hv]
    refine ⟨_, rfl, ?_⟩
    simp only [List.map_map]
    refine List.map_congr_left ?_
    intro r _
    show cellVal ((updateAssoc r.2 "close" (cellVal r.2 "adjClose")).filter
      (fun cell => cell.1 ∈ colsToKeep)) "close" = cellVal r.2 "adjClose"
    simp [cellVal, lookupAssoc_close_after_format]
  · rw [if_neg hv]
    refine ⟨_, rfl, ?_⟩
    simp only [List.map_map]
    refine List.map_congr_left ?_
    intro r _
    show cellVal (((updateAssoc r.2 "close" (cellVal r.2 "adjClose")).filter
      (fun cell => cell.1 ∈ colsToKeep)) ++ [("volume", Option.some 0)]) "close" =
      cellVal r.2 "adjClose"
    simp [cellVal,
      lookupAssoc_append_left _ _ _ _ (lookupAssoc_close_after_format r.2 _)]

/-- Witness for C7 on a two-column table. -/
theorem format_price_history_close_is_adjClose_witness :
    ("adjClose" ∈
      ({ cols := ["adjClose", "weird"],
         rows := [((1, "A"), [("adjClose", Option.some 5),
                              ("weird", Option.some 9)])] } : PriceTable).cols) ∧
    (∃ out, _format_price_history
        { cols := ["adjClose", "weird"],
          rows := [((1, "A"), [("adjClose", Option.some 5),
                               ("weird", Option.some 9)])] } = Except.ok out ∧
      out.rows.map (fun r => cellVal r.2 "close") =
        ({ cols := ["adjClose", "weird"],
           rows := [((1, "A"), [("adjClose", Option.some 5),
                                ("weird", Option.some 9)])] } :
          PriceTable).rows.map (fun r => cellVal r.2 "adjClose")) :=
  ⟨by decide,
   format_price_history_close_is_adjClose
     { cols := ["adjClose", "weird"],
       rows := [((1, "A"), [("adjClose", Option.some 5),
                            ("weird", Option.some 9)])] }
     (by decide)⟩

/-! ## `ingest_fmp` adjustment tables (claim C8) -/

/-- C8: whenever a run of `ingest_fmp` completes, the splits table and the
dividends table handed to the adjustment writer consist of their column
headers and zero rows, whatever the fetched data was. -/
theorem ingest_fmp_adjustments_empty {E : Type}
    (oracle : Params → Nat → Except E (RawResp Rec))
    (calendar : Nat → Nat → List Nat) (now : Nat) (show_progress : Bool)
    (out : IngestOutput)
    (h : ingest_fmp oracle calendar now show_progress = Except.ok out) :
    out.splits = { columns := ["sid", "ratio", "effective_date"], rows := [] } ∧
    out.dividends =
      { columns := ["sid", "record_date", "declared_date", "pay_date",
                    "amount", "ex_date"],
        rows := [] } := by
  simp only [ingest_fmp] at h
  split at h
  · exact absurd h (by simp)
  · split at h
    · exact absurd h (by simp)
    · cases h
      exact ⟨rfl, rfl⟩

/-- Witness for C8: the demonstration run completes and its adjustment
tables are empty. -/
theorem ingest_fmp_adjustments_empty_witness :
    ingest_fmp demoOracle demoCalendar 100 false = Except.ok demoIngestOut ∧
    demoIngestOut.splits =
      { columns := ["sid", "ratio", "effective_date"], rows := [] } ∧
    demoIngestOut.dividends =
      { columns := ["sid", "record_date", "declared_date", "pay_date",
                    "amount", "ex_date"],
        rows := [] } := by
  have h : ingest_fmp demoOracle demoCalendar 100 false = Except.ok demoIngestOut := by
    rfl
  obtain ⟨h1, h2⟩ :=
    ingest_fmp_adjustments_empty demoOracle demoCalendar 100 false demoIngestOut h
  exact ⟨h, h1, h2⟩

end FmpIngest
